import Mathlib

/-
Verification of the SEO heuristic analysis engine of `utils.py`
(classes `ClaudeClient` (rule-based title scorer), `SEOAnalyzer`,
`MarkdownProcessor`).

Modelling conventions (shallow embedding):
- Python strings are modelled as `List Char` (one entry per code point,
  matching CPython `len`/indexing semantics); the public entry points take
  `String` and convert with `String.toList`.
- Python floats are modelled as `ℚ` (exact rationals); `round(x, 2)` is
  modelled as rounding `x * 100` to the nearest integer.
- Character classes that CPython defines over all of Unicode
  (`str.lower`, `\w`, `\s`, `str.isdigit`) are modelled on their ASCII
  fragment (with non-ASCII code points passing through `lower` unchanged
  and counting as word characters, as CJK text does under `re.UNICODE`).
  None of the properties proved below depends on the exact extent of
  these classes beyond the concrete characters exercised.
- Regex scanning (`re.findall` with `re.MULTILINE`, `re.split`,
  `str.count`) is embedded as explicit left-to-right scans; where the
  recursion is not structural the definitions take a fuel argument equal
  to the input length so that they stay kernel-reducible.
-/

namespace SeoApp

/-- Characters removed by the Markdown-stripping step
`re.sub(r'#|\*|_|-|\[|\]|\(|\)|`', '', text)`. -/
def isMdMark (c : Char) : Bool :=
  c = '#' || c = '*' || c = '_' || c = '-' || c = '[' || c = ']' ||
  c = '(' || c = ')' || c = '`'

/-- ASCII fragment of Python's whitespace class (`\s`, `str.strip`,
`str.isspace`): space, tab, newline, carriage return, vertical tab,
form feed. -/
def isPySpace (c : Char) : Bool :=
  c = ' ' || c = '\t' || c = '\n' || c = '\r' ||
  c = Char.ofNat 11 || c = Char.ofNat 12

/-- Sentence terminators of `re.split(r'[。.!?！？]+', ...)`. -/
def isTermCh (c : Char) : Bool :=
  c = '。' || c = '.' || c = '!' || c = '?' || c = '！' || c = '？'

/-- Word characters of `re.findall(r'\w+', ...)`: ASCII alphanumerics,
underscore, and (as an ASCII-fragment model of Unicode word characters)
every non-ASCII code point. -/
def pyWordChar (c : Char) : Bool :=
  c.isAlphanum || c = '_' || decide (128 ≤ c.toNat)

/-- ASCII fragment of `str.lower` on a single character. -/
def pyCharLower (c : Char) : Char :=
  if 'A' ≤ c ∧ c ≤ 'Z' then Char.ofNat (c.toNat + 32) else c

/-- `str.lower`. -/
def pyLower (l : List Char) : List Char := l.map pyCharLower

/-- The Markdown-stripping step shared by the density and readability
analyzers (`clean_text`). -/
def cleanChars (l : List Char) : List Char := l.filter (fun c => !isMdMark c)

/-- `str.strip()`: drop leading and trailing whitespace. -/
def pyStrip (l : List Char) : List Char :=
  ((l.dropWhile isPySpace).reverse.dropWhile isPySpace).reverse

/-- Python's substring test `needle in hay`. -/
def inStr (needle : List Char) : List Char → Bool
  | [] => needle.isEmpty
  | c :: rest => needle.isPrefixOf (c :: rest) || inStr needle rest

/-- Scanning part of `str.count` for a nonempty pattern: non-overlapping
occurrences, left to right, advancing past each match.  `fuel` bounds the
recursion; `fuel = length of the text` always suffices. -/
def pyCountF (sub : List Char) : Nat → List Char → Nat
  | 0, _ => 0
  | _ + 1, [] => 0
  | fuel + 1, c :: rest =>
    if sub.isPrefixOf (c :: rest) then
      pyCountF sub fuel (rest.drop (sub.length - 1)) + 1
    else
      pyCountF sub fuel rest

/-- `str.count(sub)`.  CPython returns `len(s) + 1` for the empty
substring (`"abc".count("") == 4`: one occurrence at every position,
including the end). -/
def pyCount (sub s : List Char) : Nat :=
  if sub.isEmpty then s.length + 1 else pyCountF sub s.length s

/-- Number of maximal runs of word characters, i.e.
`len(re.findall(r'\w+', s))`.  The flag records whether the scanner is
currently inside a run. -/
def wordRunsCount : Bool → List Char → Nat
  | _, [] => 0
  | inW, c :: rest =>
    if pyWordChar c then (if inW then 0 else 1) + wordRunsCount true rest
    else wordRunsCount false rest

/-- `str.split('\n')`. -/
def splitLines : List Char → List (List Char)
  | [] => [[]]
  | c :: rest =>
    if c = '\n' then [] :: splitLines rest
    else
      match splitLines rest with
      | l :: ls => (c :: l) :: ls
      | [] => [[c]]

/-- Count of matches of `re.findall` in `re.MULTILINE` mode for a pattern
that is a literal list of characters not containing `'\n'`: scan left to
right, a match may start only at the beginning of the string or right
after a newline (`^`), and scanning resumes past each match
(non-overlapping).  `fuel = length of the text` always suffices. -/
def mlCountF (pat : List Char) : Nat → Bool → List Char → Nat
  | 0, _, _ => 0
  | _ + 1, _, [] => 0
  | fuel + 1, atStart, c :: rest =>
    if atStart && pat.isPrefixOf (c :: rest) then
      mlCountF pat fuel false (rest.drop (pat.length - 1)) + 1
    else
      mlCountF pat fuel (c == '\n') rest

/-- `len(re.findall(pat, s, re.MULTILINE))` for a newline-free literal
pattern anchored with `^`. -/
def mlCount (pat s : List Char) : Nat := mlCountF pat s.length true s

/-- The literal heading pattern of level `k`: `k` hash characters
followed by a single space (`r'^#{k} '`). -/
def hashesPat (k : Nat) : List Char := List.replicate k '#' ++ [' ']

/-- Pieces of `re.split(r'[。.!?！？]+', s)`: split on maximal runs of
sentence terminators. -/
def sentPieces : List Char → List (List Char)
  | [] => [[]]
  | c :: rest =>
    if isTermCh c then
      match rest with
      | r :: _ =>
        if isTermCh r then sentPieces rest else [] :: sentPieces rest
      | [] => [] :: sentPieces rest
  else
      match sentPieces rest with
      | p :: ps => (c :: p) :: ps
      | [] => [[c]]

/-- Suffix of `l` strictly after its last `'\n'` (or `l` itself when it
contains none). -/
def afterLastNl : List Char → List Char
  | [] => []
  | c :: rest =>
    if '\n' ∈ rest then afterLastNl rest
    else if c = '\n' then rest else c :: rest

/-- Pieces of `re.split(r'\n\s*\n', s)`.  A separator starts at a
newline; the greedy `\s*` with its final mandatory `\n` makes the match
extend to the last newline inside the maximal whitespace run that
follows, so a match starts at position `i` exactly when `s i = '\n'` and
the maximal whitespace run after it contains another newline, and
scanning resumes right after that last newline.  `fuel = length of the
text` always suffices (when it runs out the rest is kept as one piece,
which never happens with that fuel). -/
def paraPiecesF : Nat → List Char → List (List Char)
  | 0, s => [s]
  | _ + 1, [] => [[]]
  | fuel + 1, c :: rest =>
    let ws := rest.takeWhile isPySpace
    if c = '\n' ∧ '\n' ∈ ws then
      [] :: paraPiecesF fuel (afterLastNl ws ++ rest.dropWhile isPySpace)
    else
      match paraPiecesF fuel rest with
      | p :: ps => (c :: p) :: ps
      | [] => [[c]]

/-- Pieces of `re.split(r'\n\s*\n', s)`. -/
def paraPieces (s : List Char) : List (List Char) := paraPiecesF s.length s

/-- Result record of `SEOAnalyzer.analyze_keyword_density`.  `density`
holds the value already rounded to two decimal places, as returned. -/
structure KeywordDensityResult where
  keyword_count : Nat
  total_words : Nat
  density : ℚ
  recommendation : String
deriving DecidableEq, Repr

/-- The `counts` sub-record of `SEOAnalyzer.analyze_headings`. -/
structure HeadingCounts where
  h1 : Nat
  h2 : Nat
  h3 : Nat
  h4 : Nat
  h5 : Nat
  h6 : Nat
deriving DecidableEq, Repr

/-- Result record of `SEOAnalyzer.analyze_headings`. -/
structure HeadingStructureResult where
  counts : HeadingCounts
  has_h1 : Bool
  has_h2 : Bool
  too_many_h1 : Bool
  is_good_structure : Bool
deriving DecidableEq, Repr

/-- Result record of `SEOAnalyzer.analyze_readability`. -/
structure ReadabilityResult where
  paragraph_count : Nat
  sentence_count : Nat
  long_paragraphs_count : Nat
  avg_paragraph_length : ℚ
  avg_sentence_length : ℚ
  is_good_readability : Bool
deriving DecidableEq, Repr

/-- Result record of `ClaudeClient.evaluate_seo_title`. -/
structure TitleScoreResult where
  score : Int
  comment : String
deriving DecidableEq, Repr

/-- Unrounded density `keyword_count / total_words * 100` (float
division modelled as exact rational division), `0` when there are no
words. -/
def rawDensity (keyword_count total_words : Nat) : ℚ :=
  if total_words > 0 then (keyword_count : ℚ) / (total_words : ℚ) * 100 else 0

/-- Python `round(x, 2)` modelled over `ℚ`: round `x * 100` to the
nearest integer (CPython rounds float ties to even; over exact rationals
the two sides of this development always use the same rounding, so the
tie-breaking rule is immaterial to the claims). -/
def pyRound2 (q : ℚ) : ℚ := (round (q * 100) : ℤ) / 100

/-- Three-way recommendation copy of `analyze_keyword_density`, chosen
from the unrounded density. -/
def densityRecommendation (density : ℚ) : String :=
  if density < 0.5 then
    "キーワード密度が低すぎます。記事内でキーワードをもう少し使用することを検討してください。"
  else if density > 3.0 then
    "キーワード密度が高すぎる可能性があります。自然な文章になるよう調整してください。"
  else
    "キーワード密度は適切な範囲内です。"

namespace SEOAnalyzer

/-- `SEOAnalyzer.analyze_keyword_density(text, keyword)`: strip Markdown
markers, count words (`\w+` runs), count case-insensitive substring
occurrences of the keyword in the lower-cased cleaned text, and derive
the density and recommendation. -/
def analyze_keyword_density (text keyword : String) : KeywordDensityResult :=
  { keyword_count :=
      pyCount (pyLower keyword.toList) (pyLower (cleanChars text.toList))
    total_words := wordRunsCount false (cleanChars text.toList)
    density :=
      pyRound2 (rawDensity
        (pyCount (pyLower keyword.toList) (pyLower (cleanChars text.toList)))
        (wordRunsCount false (cleanChars text.toList)))
    recommendation :=
      densityRecommendation (rawDensity
        (pyCount (pyLower keyword.toList) (pyLower (cleanChars text.toList)))
        (wordRunsCount false (cleanChars text.toList))) }

/-- `SEOAnalyzer.analyze_headings(text)`: per-level counts of
`r'^#{level} '` in multiline mode over the raw text, plus the derived
structure flags. -/
def analyze_headings (text : String) : HeadingStructureResult :=
  { counts :=
      { h1 := mlCount (hashesPat 1) text.toList
        h2 := mlCount (hashesPat 2) text.toList
        h3 := mlCount (hashesPat 3) text.toList
        h4 := mlCount (hashesPat 4) text.toList
        h5 := mlCount (hashesPat 5) text.toList
        h6 := mlCount (hashesPat 6) text.toList }
    has_h1 := decide (mlCount (hashesPat 1) text.toList > 0)
    has_h2 := decide (mlCount (hashesPat 2) text.toList > 0)
    too_many_h1 := decide (mlCount (hashesPat 1) text.toList > 1)
    is_good_structure :=
      decide (mlCount (hashesPat 1) text.toList > 0) &&
      decide (mlCount (hashesPat 2) text.toList > 0) &&
      !decide (mlCount (hashesPat 1) text.toList > 1) }

/-- Paragraph list of `analyze_readability`: split the cleaned text on
blank lines, strip each piece, keep the nonempty ones. -/
def paragraphsOf (clean : List Char) : List (List Char) :=
  ((paraPieces clean).map pyStrip).filter (fun p => !p.isEmpty)

/-- Sentence list of `analyze_readability`: split the cleaned text on
runs of sentence terminators, strip each piece, keep the nonempty
ones. -/
def sentencesOf (clean : List Char) : List (List Char) :=
  ((sentPieces clean).map pyStrip).filter (fun p => !p.isEmpty)

/-- Mean character length of a list of pieces (`0` when empty), with
float arithmetic modelled as exact rationals. -/
def avgLen (ps : List (List Char)) : ℚ :=
  if ps.length > 0 then
    (((ps.map List.length).sum : Nat) : ℚ) / (ps.length : ℚ)
  else 0

/-- Number of paragraphs of character length `> 100`. -/
def longParaCount (clean : List Char) : Nat :=
  ((paragraphsOf clean).filter (fun p => p.length > 100)).length

/-- `SEOAnalyzer.analyze_readability(text)`.  Note the Python source's
operator precedence: the whole conjunction
`avg_paragraph_length < 120 and avg_sentence_length < 50 and
long_paragraphs_count / paragraph_count < 0.3` is the `if` arm of the
conditional expression, so the result is `True` whenever
`paragraph_count == 0`. -/
def analyze_readability (text : String) : ReadabilityResult :=
  { paragraph_count := (paragraphsOf (cleanChars text.toList)).length
    sentence_count := (sentencesOf (cleanChars text.toList)).length
    long_paragraphs_count := longParaCount (cleanChars text.toList)
    avg_paragraph_length := avgLen (paragraphsOf (cleanChars text.toList))
    avg_sentence_length := avgLen (sentencesOf (cleanChars text.toList))
    is_good_readability :=
      if (paragraphsOf (cleanChars text.toList)).length > 0 then
        decide (avgLen (paragraphsOf (cleanChars text.toList)) < 120) &&
        decide (avgLen (sentencesOf (cleanChars text.toList)) < 50) &&
        decide ((longParaCount (cleanChars text.toList) : ℚ) /
          ((paragraphsOf (cleanChars text.toList)).length : ℚ) < 0.3)
      else true }

end SEOAnalyzer

/-- The fixed persuasive-word list of `evaluate_seo_title`. -/
def click_bait_words : List String :=
  ["方法", "コツ", "秘訣", "完全", "ガイド", "最高", "効果", "おすすめ", "人気", "必須"]

namespace ClaudeClient

/-- Score after the keyword deduction: `-30` when the lower-cased
keyword is not a substring of the lower-cased title. -/
def scoreAfterKeyword (title main_keyword : String) : Int :=
  if !inStr (pyLower main_keyword.toList) (pyLower title.toList) then 100 - 30
  else 100

/-- Score after the length deduction: `-15` when the title has more than
35 characters, else `-10` when it has fewer than 10. -/
def scoreAfterLength (title main_keyword : String) : Int :=
  if title.toList.length > 35 then scoreAfterKeyword title main_keyword - 15
  else if title.toList.length < 10 then scoreAfterKeyword title main_keyword - 10
  else scoreAfterKeyword title main_keyword

/-- Score after the digit deduction: `-5` when no character of the title
is a digit. -/
def scoreAfterDigit (title main_keyword : String) : Int :=
  if !(title.toList.any Char.isDigit) then scoreAfterLength title main_keyword - 5
  else scoreAfterLength title main_keyword

/-- Score after the persuasive-word deduction: `-5` when none of
`click_bait_words` occurs in the title. -/
def scoreAfterBait (title main_keyword : String) : Int :=
  if !(click_bait_words.any (fun w => inStr w.toList title.toList)) then
    scoreAfterDigit title main_keyword - 5
  else scoreAfterDigit title main_keyword

/-- Final clamp `max(0, min(100, score))`. -/
def finalScore (title main_keyword : String) : Int :=
  max 0 (min 100 (scoreAfterBait title main_keyword))

/-- The list of triggered improvement notes, in source order. -/
def scoreComments (title main_keyword : String) : List String :=
  (if !inStr (pyLower main_keyword.toList) (pyLower title.toList) then
    ["メインキーワードが含まれていません"] else []) ++
  (if title.toList.length > 35 then ["タイトルが長すぎます（30文字以下が望ましい）"]
   else if title.toList.length < 10 then ["タイトルが短すぎます"] else []) ++
  (if !(title.toList.any Char.isDigit) then
    ["数字を含めるとCTRが向上する可能性があります"] else []) ++
  (if !(click_bait_words.any (fun w => inStr w.toList title.toList)) then
    ["魅力的な表現を追加するとよいでしょう"] else [])

/-- Summary tier chosen from the clamped score and whether any note was
triggered. -/
def scoreSummary (score : Int) (comments : List String) : String :=
  if score ≥ 80 then
    if comments.isEmpty then "優れたSEOタイトルです"
    else "良いタイトルですが、改善の余地があります"
  else if score ≥ 60 then "平均的なSEOタイトルです。改善点があります"
  else "SEO観点から改善が必要です"

/-- `ClaudeClient.evaluate_seo_title(title, main_keyword)`: start from
100, apply the four deductions, clamp to `[0, 100]`, and compose the
comment string. -/
def evaluate_seo_title (title main_keyword : String) : TitleScoreResult :=
  { score := finalScore title main_keyword
    comment :=
      if (scoreComments title main_keyword).isEmpty then
        scoreSummary (finalScore title main_keyword) (scoreComments title main_keyword)
      else
        scoreSummary (finalScore title main_keyword) (scoreComments title main_keyword)
          ++ ": " ++ String.intercalate " / " (scoreComments title main_keyword) }

end ClaudeClient

/-- First recognized TOC marker literal, `"## 目次"`. -/
def tocMarkA : List Char := "## 目次".toList

/-- Second recognized TOC marker literal, `"##目次"`. -/
def tocMarkB : List Char := "##目次".toList

/-- The two-newline separator `"\n\n"`. -/
def nl2 : List Char := ['\n', '\n']

/-- Per-line heading match `re.match(r'^(#{1,3})\s+(.+)$', line)` on a
newline-free line, returning `(level, text)` with
`text = group(2).strip()`.  The greedy `#{1,3}` backtracks against the
mandatory `\s`, so a line whose leading hash run is longer than 3 never
matches; after the hashes the pattern needs at least one whitespace
character and at least one further character.  The greedy `\s+` leaves
`group(2)` as the remainder after the maximal whitespace run — except
when that remainder is empty, where backtracking hands the last
whitespace character to `(.+)`; in both cases `group(2).strip()` equals
the stripped remainder after the whitespace run. -/
def matchHeadingLine (line : List Char) : Option (Nat × List Char) :=
  if 1 ≤ (line.takeWhile (fun c => c = '#')).length ∧
      (line.takeWhile (fun c => c = '#')).length ≤ 3 then
    match line.drop (line.takeWhile (fun c => c = '#')).length with
    | a :: _ :: _ =>
      if isPySpace a then
        some ((line.takeWhile (fun c => c = '#')).length,
          pyStrip ((line.drop (line.takeWhile (fun c => c = '#')).length).dropWhile
            isPySpace))
      else none
    | _ => none
  else none

/-- Headings collected by `add_toc_if_needed`: per-line matches of
levels 1–3, keeping only levels above 1 (H1 is reserved for the
title). -/
def headingsOf (t : List Char) : List (Nat × List Char) :=
  ((splitLines t).filterMap matchHeadingLine).filter (fun h => 1 < h.1)

/-- One generated TOC entry line
`f"{indent}- [{link_text}](#{anchor})"`: indent two spaces per level
above 2, strip square brackets from the link text, and slug the anchor
by lower-casing and replacing spaces with hyphens. -/
def tocEntryLine (h : Nat × List Char) : List Char :=
  List.replicate (2 * (h.1 - 2)) ' ' ++
    ('-' :: ' ' :: '[' :: (h.2.filter (fun c => !(c = '[' || c = ']'))) ++
      (']' :: '(' :: '#' ::
        ((pyLower (h.2.filter (fun c => !(c = '[' || c = ']')))).map
          (fun c => if c = ' ' then '-' else c)) ++ [')']))

/-- The generated TOC as a list of lines: the `"## 目次"` header, a
blank line, the entries, and a trailing blank line. -/
def tocLines (hs : List (Nat × List Char)) : List (List Char) :=
  tocMarkA :: [] :: (hs.map tocEntryLine ++ [[]])

/-- `'\n'.join(lines)`. -/
def joinNL : List (List Char) → List Char
  | [] => []
  | [l] => l
  | l :: ls => l ++ '\n' :: joinNL ls

/-- The rendered TOC block `'\n'.join(toc)`. -/
def tocBlock (hs : List (Nat × List Char)) : List Char := joinNL (tocLines hs)

/-- `str.split('\n\n', 1)`: split at the first occurrence of the
pattern, if any. -/
def splitOncePat (pat : List Char) : List Char → Option (List Char × List Char)
  | [] => none
  | c :: rest =>
    if pat.isPrefixOf (c :: rest) then some ([], (c :: rest).drop pat.length)
    else
      match splitOncePat pat rest with
      | some (a, b) => some (c :: a, b)
      | none => none

namespace MarkdownProcessor

/-- `MarkdownProcessor.add_toc_if_needed(markdown_text)`: return the
input unchanged when it already contains a TOC marker or has no level
2–3 headings; otherwise insert the generated TOC block after the first
`"\n\n"`-delimited part (or append it when there is none). -/
def add_toc_if_needed (markdown_text : String) : String :=
  if inStr tocMarkA markdown_text.toList || inStr tocMarkB markdown_text.toList then
    markdown_text
  else if (headingsOf markdown_text.toList).isEmpty then markdown_text
  else
    match splitOncePat nl2 markdown_text.toList with
    | some (a, b) =>
      String.mk (a ++ nl2 ++ tocBlock (headingsOf markdown_text.toList) ++ nl2 ++ b)
    | none =>
      String.mk (markdown_text.toList ++ nl2 ++ tocBlock (headingsOf markdown_text.toList))

end MarkdownProcessor

theorem pyCount_nil_left (s : List Char) : pyCount [] s = s.length + 1 := by
  simp [pyCount]

theorem pyRound2_zero : pyRound2 0 = 0 := by
  simp [pyRound2]

theorem rawDensity_round (kc tw : Nat) :
    pyRound2 (rawDensity kc tw) =
      if 0 < tw then pyRound2 ((kc : ℚ) / (tw : ℚ) * 100) else 0 := by
  unfold rawDensity
  split
  · rfl
  · exact pyRound2_zero

/-- C1 (counterexample): on the text `"ab"` with the empty keyword the
code returns `keyword_count = 3` (CPython `str.count("")` is
`len + 1`), not `0`. -/
theorem analyze_keyword_density_empty_keyword_cex :
    (SEOAnalyzer.analyze_keyword_density "ab" "").keyword_count ≠ 0 := by decide

/-- C1 (amended): for every text `t`, the empty keyword is not
special-cased; `analyze_keyword_density t ""` returns
`keyword_count` equal to the length of the Markdown-stripped text plus
one, following CPython `str.count` semantics for the empty
substring. -/
theorem analyze_keyword_density_empty_keyword (t : String) :
    (SEOAnalyzer.analyze_keyword_density t "").keyword_count =
      (cleanChars t.toList).length + 1 := by
  show pyCount (pyLower "".toList) (pyLower (cleanChars t.toList)) = _
  rw [show pyLower "".toList = [] from rfl, pyCount_nil_left]
  simp [pyLower]

/-- C6: the `density` field equals `keyword_count / total_words * 100`
rounded to two decimal places when `total_words > 0`, and `0` when
`total_words = 0` — stated over the returned record's own fields. -/
theorem analyze_keyword_density_density_eq (t k : String) :
    (SEOAnalyzer.analyze_keyword_density t k).density =
      if 0 < (SEOAnalyzer.analyze_keyword_density t k).total_words then
        pyRound2 (((SEOAnalyzer.analyze_keyword_density t k).keyword_count : ℚ) /
          ((SEOAnalyzer.analyze_keyword_density t k).total_words : ℚ) * 100)
      else 0 :=
  rawDensity_round _ _

/-- C7: keyword-density analysis depends on the keyword only through
its lower-casing, so any two keywords with the same lower-casing (in
particular any change of letter case) produce the same result
record. -/
theorem analyze_keyword_density_keyword_case (t k₁ k₂ : String)
    (h : pyLower k₁.toList = pyLower k₂.toList) :
    SEOAnalyzer.analyze_keyword_density t k₁ =
      SEOAnalyzer.analyze_keyword_density t k₂ := by
  unfold SEOAnalyzer.analyze_keyword_density
  rw [h]

/-- C7 (witness): the concrete instance of the claim,
`analyzeDensity(T, "Keyword") = analyzeDensity(T, "keyword")`. -/
theorem analyze_keyword_density_keyword_case_witness :
    SEOAnalyzer.analyze_keyword_density "Keyword text with keyword." "Keyword" =
      SEOAnalyzer.analyze_keyword_density "Keyword text with keyword." "keyword" :=
  analyze_keyword_density_keyword_case _ _ _ (by decide)

/-- C8: `scoreTitle("お得な方法", "方法")` returns score 85: keyword
present (no −30), length 5 < 10 (−10), no digit (−5), persuasive word
"方法" present (no −5). -/
theorem evaluate_seo_title_concrete_score :
    (ClaudeClient.evaluate_seo_title "お得な方法" "方法").score = 85 := by decide

/-- C9: the returned score is always clamped to the interval
`[0, 100]`. -/
theorem evaluate_seo_title_score_bounds (title main_keyword : String) :
    0 ≤ (ClaudeClient.evaluate_seo_title title main_keyword).score ∧
      (ClaudeClient.evaluate_seo_title title main_keyword).score ≤ 100 := by
  have h : (ClaudeClient.evaluate_seo_title title main_keyword).score =
      ClaudeClient.finalScore title main_keyword := rfl
  rw [h]
  unfold ClaudeClient.finalScore
  omega

/-- C10: the four deductions sum to at most 55, so the score is always
at least 45 and the lower clamp is never binding. -/
theorem evaluate_seo_title_score_min (title main_keyword : String) :
    45 ≤ (ClaudeClient.evaluate_seo_title title main_keyword).score := by
  have hb : 45 ≤ ClaudeClient.scoreAfterBait title main_keyword ∧
      ClaudeClient.scoreAfterBait title main_keyword ≤ 100 := by
    unfold ClaudeClient.scoreAfterBait ClaudeClient.scoreAfterDigit
      ClaudeClient.scoreAfterLength ClaudeClient.scoreAfterKeyword
    split_ifs <;> omega
  have h : (ClaudeClient.evaluate_seo_title title main_keyword).score =
      ClaudeClient.finalScore title main_keyword := rfl
  rw [h]
  unfold ClaudeClient.finalScore
  omega

theorem inStr_nil_left (h : List Char) : inStr [] h = true := by
  cases h <;> simp [inStr, List.isPrefixOf]

theorem inStr_eq_true_of_part {n h : List Char} (hi : n <:+: h) :
    inStr n h = true := by
  obtain ⟨u, v, rfl⟩ := hi
  induction u with
  | nil =>
    cases n with
    | nil => exact inStr_nil_left _
    | cons a n' =>
      have hp : (a :: n').isPrefixOf ((a :: n') ++ v) = true :=
        List.isPrefixOf_iff_prefix.mpr (List.prefix_append _ _)
      show ((a :: n').isPrefixOf ((a :: n') ++ v) ||
        inStr (a :: n') (n' ++ v)) = true
      rw [hp, Bool.true_or]
  | cons c u' ih =>
    show (List.isPrefixOf _ _ || inStr n (u' ++ n ++ v)) = true
    rw [ih, Bool.or_true]

theorem tocMarkA_prefixes_tocBlock (hs : List (Nat × List Char)) :
    tocMarkA <+: tocBlock hs :=
  ⟨'\n' :: joinNL ([] :: (hs.map tocEntryLine ++ [[]])), rfl⟩

/-- C5: `addTocIfNeeded` is idempotent: the inserted block always
contains the literal `"## 目次"` marker line, so a second application
hits the guard and returns its input unchanged; when nothing is
inserted the result already equals the input. -/
theorem add_toc_if_needed_idem (x : String) :
    MarkdownProcessor.add_toc_if_needed (MarkdownProcessor.add_toc_if_needed x) =
      MarkdownProcessor.add_toc_if_needed x := by
  by_cases hg : (inStr tocMarkA x.toList || inStr tocMarkB x.toList) = true
  · have h1 : MarkdownProcessor.add_toc_if_needed x = x := by
      unfold MarkdownProcessor.add_toc_if_needed
      rw [if_pos hg]
    rw [h1]
    exact h1
  · by_cases hh : (headingsOf x.toList).isEmpty = true
    · have h1 : MarkdownProcessor.add_toc_if_needed x = x := by
        unfold MarkdownProcessor.add_toc_if_needed
        rw [if_neg hg, if_pos hh]
      rw [h1]
      exact h1
    · obtain ⟨r, hr⟩ := tocMarkA_prefixes_tocBlock (headingsOf x.toList)
      have hstep : ∃ L : List Char,
          MarkdownProcessor.add_toc_if_needed x = String.mk L ∧
          inStr tocMarkA L = true := by
        unfold MarkdownProcessor.add_toc_if_needed
        rw [if_neg hg, if_neg hh]
        rcases hsp : splitOncePat nl2 x.toList with _ | ⟨a, b⟩
        · refine ⟨_, rfl, inStr_eq_true_of_part ⟨x.toList ++ nl2, r, ?_⟩⟩
          rw [← hr]
          simp [List.append_assoc]
        · refine ⟨_, rfl, inStr_eq_true_of_part
            ⟨a ++ nl2, r ++ nl2 ++ b, ?_⟩⟩
          rw [← hr]
          simp [List.append_assoc]
      obtain ⟨L, hL, hmem⟩ := hstep
      rw [hL]
      unfold MarkdownProcessor.add_toc_if_needed
      have ht : (String.mk L).toList = L := rfl
      rw [if_pos]
      rw [ht, hmem, Bool.true_or]

/-- C4: `is_good_structure` holds exactly when there is at least one H1,
at least one H2, and at most one H1; with the three concrete examples of
the spec. -/
theorem analyze_headings_good_structure_iff :
    (∀ doc : String,
      (SEOAnalyzer.analyze_headings doc).is_good_structure = true ↔
        (1 ≤ (SEOAnalyzer.analyze_headings doc).counts.h1 ∧
         1 ≤ (SEOAnalyzer.analyze_headings doc).counts.h2 ∧
         (SEOAnalyzer.analyze_headings doc).counts.h1 ≤ 1)) ∧
    (SEOAnalyzer.analyze_headings "# T\n## A\n## B").is_good_structure = true ∧
    (SEOAnalyzer.analyze_headings "## A").is_good_structure = false ∧
    (SEOAnalyzer.analyze_headings "# T\n# U\n## A").is_good_structure = false := by
  refine ⟨?_, by decide, by decide, by decide⟩
  intro doc
  show (decide (mlCount (hashesPat 1) doc.toList > 0) &&
      decide (mlCount (hashesPat 2) doc.toList > 0) &&
      !decide (mlCount (hashesPat 1) doc.toList > 1)) = true ↔
    (1 ≤ mlCount (hashesPat 1) doc.toList ∧
     1 ≤ mlCount (hashesPat 2) doc.toList ∧
     mlCount (hashesPat 1) doc.toList ≤ 1)
  simp only [Bool.and_eq_true, Bool.not_eq_true', decide_eq_true_eq,
    decide_eq_false_iff_not]
  omega

theorem isPrefixOf_nil_right {pat : List Char} (h : pat ≠ []) :
    pat.isPrefixOf ([] : List Char) = false := by
  cases pat with
  | nil => exact absurd rfl h
  | cons a as => rfl

theorem splitLines_ne_nil (l : List Char) : splitLines l ≠ [] := by
  cases l with
  | nil => simp [splitLines]
  | cons c rest =>
    unfold splitLines
    split
    · exact List.cons_ne_nil _ _
    · split
      · exact List.cons_ne_nil _ _
      · exact List.cons_ne_nil _ _

theorem splitLines_cons_nl (u : List Char) :
    splitLines ('\n' :: u) = [] :: splitLines u := by
  show (if '\n' = '\n' then [] :: splitLines u else
    match splitLines u with
    | l :: ls => ('\n' :: l) :: ls
    | [] => [['\n']]) = [] :: splitLines u
  rw [if_pos rfl]

theorem splitLines_cons_of_ne {a : Char} (u : List Char) (ha : ¬ a = '\n') :
    splitLines (a :: u) = (a :: (splitLines u).headI) :: (splitLines u).tail := by
  cases hsl : splitLines u with
  | nil => exact absurd hsl (splitLines_ne_nil u)
  | cons q qs =>
    show (if a = '\n' then [] :: splitLines u else
      match splitLines u with
      | l :: ls => (a :: l) :: ls
      | [] => [[a]]) = _
    rw [if_neg ha, hsl]
    simp

theorem splitLines_headI_leads (l : List Char) : (splitLines l).headI <+: l := by
  induction l with
  | nil => simp [splitLines]
  | cons c rest ih =>
    by_cases hc : c = '\n'
    · subst hc
      rw [splitLines_cons_nl]
      simp
    · rw [splitLines_cons_of_ne rest hc]
      simp only [List.headI_cons]
      exact List.cons_prefix_cons.mpr ⟨rfl, ih⟩

theorem splitLines_append_of_no_nl (p u : List Char) (hp : ∀ c ∈ p, c ≠ '\n') :
    splitLines (p ++ u) = (p ++ (splitLines u).headI) :: (splitLines u).tail := by
  induction p with
  | nil =>
    simp only [List.nil_append]
    cases hsl : splitLines u with
    | nil => exact absurd hsl (splitLines_ne_nil u)
    | cons q qs => simp
  | cons a p' ih =>
    have ha : ¬(a = '\n') := hp a (List.mem_cons_self a p')
    rw [List.cons_append, splitLines_cons_of_ne _ ha,
      ih (fun c hc => hp c (List.mem_cons_of_mem _ hc))]
    simp

theorem mlCountF_succ_match {pat : List Char} {c : Char} {rest : List Char}
    {fuel : Nat} {b : Bool} (hb : (b && pat.isPrefixOf (c :: rest)) = true) :
    mlCountF pat (fuel + 1) b (c :: rest) =
      mlCountF pat fuel false (rest.drop (pat.length - 1)) + 1 := by
  show (if (b && pat.isPrefixOf (c :: rest)) = true then
      mlCountF pat fuel false (rest.drop (pat.length - 1)) + 1
    else mlCountF pat fuel (c == '\n') rest) = _
  rw [if_pos hb]

theorem mlCountF_succ_skip {pat : List Char} {c : Char} {rest : List Char}
    {fuel : Nat} {b : Bool} (hb : ¬ (b && pat.isPrefixOf (c :: rest)) = true) :
    mlCountF pat (fuel + 1) b (c :: rest) =
      mlCountF pat fuel (c == '\n') rest := by
  show (if (b && pat.isPrefixOf (c :: rest)) = true then
      mlCountF pat fuel false (rest.drop (pat.length - 1)) + 1
    else mlCountF pat fuel (c == '\n') rest) = _
  rw [if_neg hb]

theorem mlCountF_eq_countP (pat : List Char) (hne : pat ≠ [])
    (hnl : ∀ c ∈ pat, c ≠ '\n') :
    ∀ fuel s, s.length ≤ fuel → ∀ b : Bool,
      mlCountF pat fuel b s =
        List.countP (fun l => pat.isPrefixOf l)
          (if b then splitLines s else (splitLines s).tail) := by
  have hnilcase : ∀ b : Bool,
      List.countP (fun l => pat.isPrefixOf l)
        (if b then splitLines ([] : List Char)
         else (splitLines ([] : List Char)).tail) = 0 := by
    intro b
    cases b <;>
      simp [splitLines, List.countP_cons, isPrefixOf_nil_right hne]
  intro fuel
  induction fuel with
  | zero =>
    intro s hs b
    have hs0 : s = [] := List.length_eq_zero.mp (Nat.le_zero.mp hs)
    subst hs0
    rw [hnilcase b]
    rfl
  | succ fuel ih =>
    intro s hs b
    cases s with
    | nil => rw [hnilcase b]; rfl
    | cons c rest =>
      have hrest : rest.length ≤ fuel := Nat.le_of_succ_le_succ hs
      by_cases hb : (b && pat.isPrefixOf (c :: rest)) = true
      · have hb' := hb
        simp only [Bool.and_eq_true] at hb'
        obtain ⟨hbt, hpre⟩ := hb'
        subst hbt
        obtain ⟨tl, htl⟩ := List.isPrefixOf_iff_prefix.mp hpre
        have hdrop : rest.drop (pat.length - 1) = tl := by
          cases pat with
          | nil => exact absurd rfl hne
          | cons p0 pat' =>
            rw [List.cons_append] at htl
            obtain ⟨hp0, hrest'⟩ := List.cons.inj htl
            simp only [List.length_cons, Nat.add_sub_cancel]
            rw [← hrest', List.drop_left]
        have hlen : tl.length ≤ fuel := by
          have h2 : tl.length ≤ rest.length := by
            rw [← hdrop, List.length_drop]
            exact Nat.sub_le _ _
          exact le_trans h2 hrest
        rw [mlCountF_succ_match hb, hdrop, ih tl hlen false]
        have hsl : splitLines (c :: rest) =
            (pat ++ (splitLines tl).headI) :: (splitLines tl).tail := by
          rw [← htl]
          exact splitLines_append_of_no_nl pat tl hnl
        have hpre2 : pat.isPrefixOf (pat ++ (splitLines tl).headI) = true :=
          List.isPrefixOf_iff_prefix.mpr (List.prefix_append _ _)
        rw [if_pos rfl, hsl, List.countP_cons, hpre2]
        simp [Nat.add_comm]
      · rw [mlCountF_succ_skip hb]
        by_cases hc : c = '\n'
        · subst hc
          rw [show (('\n' : Char) == '\n') = true from rfl, ih rest hrest true,
            splitLines_cons_nl]
          cases b
          · simp
          · simp [List.countP_cons, isPrefixOf_nil_right hne]
        · rw [show ((c == '\n') : Bool) = false from beq_eq_false_iff_ne.mpr hc,
            ih rest hrest false, splitLines_cons_of_ne rest hc]
          cases b
          · simp
          · simp only [if_true, List.countP_cons]
            have hnp : pat.isPrefixOf (c :: (splitLines rest).headI) = false := by
              by_contra hcon
              have hpre : pat <+: c :: (splitLines rest).headI :=
                List.isPrefixOf_iff_prefix.mp (Bool.of_not_eq_false hcon)
              have hline : (c :: (splitLines rest).headI) <+: (c :: rest) :=
                List.cons_prefix_cons.mpr ⟨rfl, splitLines_headI_leads rest⟩
              have hpc : pat.isPrefixOf (c :: rest) = true :=
                List.isPrefixOf_iff_prefix.mpr (hpre.trans hline)
              rw [hpc, Bool.and_true] at hb
              exact hb rfl
            rw [hnp]
            have htail : ((splitLines rest).headI :: (splitLines rest).tail).tail =
                (splitLines rest).tail := rfl
            simp

theorem mlCount_eq_line_count (pat : List Char) (hne : pat ≠ [])
    (hnl : ∀ c ∈ pat, c ≠ '\n') (s : List Char) :
    mlCount pat s = List.countP (fun l => pat.isPrefixOf l) (splitLines s) := by
  have h := mlCountF_eq_countP pat hne hnl s.length s le_rfl true
  simpa using h

theorem takeWhile_hash_replicate (k : Nat) (t : List Char) :
    (List.replicate k '#' ++ ' ' :: t).takeWhile (fun c => c = '#') =
      List.replicate k '#' := by
  induction k with
  | zero => simp [List.takeWhile_cons]
  | succ k ih => simp [List.replicate_succ, List.takeWhile_cons, ih]

theorem hashesPat_isPrefixOf_iff (k : Nat) (l : List Char) :
    (hashesPat k).isPrefixOf l = true ↔
      ((l.takeWhile (fun c => c = '#')).length = k ∧
        (l.drop k).head? = some ' ') := by
  rw [ List.isPrefixOf_iff_prefix]
  constructor
  · rintro ⟨t, ht⟩
    have hl : l = List.replicate k '#' ++ ' ' :: t := by
      rw [← ht]
      simp [hashesPat]
    subst hl
    constructor
    · rw [takeWhile_hash_replicate k t]
      exact List.length_replicate _ _
    · have hd : (List.replicate k '#' ++ ' ' :: t).drop k = ' ' :: t := by
        have h := List.drop_left (List.replicate k '#') (' ' :: t)
        rwa [List.length_replicate] at h
      rw [hd]
      rfl
  · rintro ⟨h1, h2⟩
    obtain ⟨ys, hys⟩ := List.head?_eq_some_iff.mp h2
    have htw := List.takeWhile_prefix (l := l) (fun c => decide (c = '#'))
    have htake : l.take k = List.replicate k '#' := by
      have heq : l.takeWhile (fun c => decide (c = '#')) = l.take k := by
        rw [List.prefix_iff_eq_take] at htw
        rw [htw, h1]
      rw [← heq, List.eq_replicate_iff]
      exact ⟨h1, fun b hb => by simpa using List.mem_takeWhile_imp hb⟩
    refine ⟨ys, ?_⟩
    rw [show hashesPat k = List.replicate k '#' ++ [' '] from rfl, ← htake,
      List.append_assoc]
    show l.take k ++ (' ' :: ys) = l
    rw [← hys, List.take_append_drop]

theorem hashesPat_ne_nil (k : Nat) : hashesPat k ≠ [] := by
  simp [hashesPat]

theorem hashesPat_no_nl (k : Nat) : ∀ c ∈ hashesPat k, c ≠ '\n' := by
  intro c hc
  rw [hashesPat, List.mem_append] at hc
  rcases hc with h | h
  · rw [List.eq_of_mem_replicate h]
    decide
  · rw [List.mem_singleton.mp h]
    decide

/-- C3: heading counting is exact-level: for every document and level
`k`, the multiline count of `r'^#{k} '` equals the number of lines that
begin with exactly `k` hash characters followed by a space (the hash run
has length exactly `k` and the next character is a space); and the
document `"#### Title"` yields h1=0, h2=0, h3=0, h4=1. -/
theorem analyze_headings_exact_level :
    (∀ (doc : String) (k : Nat), 1 ≤ k → k ≤ 6 →
      mlCount (hashesPat k) doc.toList =
        ((splitLines doc.toList).filter (fun l =>
          decide ((l.takeWhile (fun c => c = '#')).length = k ∧
            (l.drop k).head? = some ' '))).length) ∧
    (SEOAnalyzer.analyze_headings "#### Title").counts =
      { h1 := 0, h2 := 0, h3 := 0, h4 := 1, h5 := 0, h6 := 0 } := by
  refine ⟨?_, by decide⟩
  intro doc k _ _
  rw [mlCount_eq_line_count _ (hashesPat_ne_nil k) (hashesPat_no_nl k),
    List.countP_eq_length_filter]
  congr 1
  apply List.filter_congr
  intro l _
  by_cases hP : ((l.takeWhile (fun c => c = '#')).length = k ∧
      (l.drop k).head? = some ' ')
  · rw [(hashesPat_isPrefixOf_iff k l).mpr hP, decide_eq_true hP]
  · rw [decide_eq_false hP]
    exact Bool.eq_false_iff.mpr (fun hc => hP ((hashesPat_isPrefixOf_iff k l).mp hc))

/-- C3 (witness): the per-level characterization instantiated at the
document `"#### Title"` and level 4. -/
theorem analyze_headings_exact_level_witness :
    mlCount (hashesPat 4) "#### Title".toList =
      ((splitLines "#### Title".toList).filter (fun l =>
        decide ((l.takeWhile (fun c => c = '#')).length = 4 ∧
          (l.drop 4).head? = some ' '))).length :=
  analyze_headings_exact_level.1 "#### Title" 4 (by decide) (by decide)

theorem pyStrip_eq_nil_iff (l : List Char) :
    pyStrip l = [] ↔ ∀ c ∈ l, isPySpace c = true := by
  unfold pyStrip
  rw [List.reverse_eq_nil_iff, List.dropWhile_eq_nil_iff]
  constructor
  · intro h c hc
    rw [← List.takeWhile_append_dropWhile (p := isPySpace) (l := l)] at hc
    cases List.mem_append.mp hc with
    | inl h1 => exact List.mem_takeWhile_imp h1
    | inr h2 => exact h c (List.mem_reverse.mpr h2)
  · intro h c hc
    exact h c ((List.dropWhile_sublist _).subset (List.mem_reverse.mp hc))

theorem sentPieces_cons (c : Char) (rest : List Char) :
    sentPieces (c :: rest) =
      if isTermCh c then
        match rest with
        | r :: _ => if isTermCh r then sentPieces rest else [] :: sentPieces rest
        | [] => [] :: sentPieces rest
      else
        match sentPieces rest with
        | p :: ps => (c :: p) :: ps
        | [] => [[c]] := rfl

theorem sentPieces_ne_nil : ∀ s : List Char, sentPieces s ≠ [] := by
  intro s
  induction s with
  | nil => simp [sentPieces]
  | cons c rest ih =>
    rw [sentPieces_cons]
    by_cases ht : isTermCh c = true
    · rw [if_pos ht]
      cases rest with
      | nil => exact List.cons_ne_nil _ _
      | cons r rs =>
        show (if isTermCh r = true then sentPieces (r :: rs)
          else [] :: sentPieces (r :: rs)) ≠ []
        by_cases htr : isTermCh r = true
        · rw [if_pos htr]
          exact ih
        · rw [if_neg htr]
          exact List.cons_ne_nil _ _
    · rw [if_neg ht]
      cases hsp : sentPieces rest with
      | nil => exact absurd hsp ih
      | cons p ps => exact List.cons_ne_nil _ _

theorem sentPieces_mem_mem :
    ∀ (s p : List Char), p ∈ sentPieces s → ∀ c ∈ p, c ∈ s := by
  intro s
  induction s with
  | nil =>
    intro p hp c hc
    simp [sentPieces] at hp
    subst hp
    exact absurd hc (List.not_mem_nil c)
  | cons a rest ih =>
    intro p hp c hc
    rw [sentPieces_cons] at hp
    by_cases ht : isTermCh a = true
    · rw [if_pos ht] at hp
      cases rest with
      | nil =>
        simp [sentPieces] at hp
        subst hp
        exact absurd hc (List.not_mem_nil c)
      | cons r rs =>
        rw [show (match r :: rs with
            | r' :: _ => if isTermCh r' then sentPieces (r :: rs)
                else [] :: sentPieces (r :: rs)
            | [] => [] :: sentPieces (r :: rs)) =
          if isTermCh r then sentPieces (r :: rs)
            else [] :: sentPieces (r :: rs) from rfl] at hp
        by_cases htr : isTermCh r = true
        · rw [if_pos htr] at hp
          exact List.mem_cons_of_mem _ (ih p hp c hc)
        · rw [if_neg htr] at hp
          cases List.mem_cons.mp hp with
          | inl h =>
            subst h
            exact absurd hc (List.not_mem_nil c)
          | inr h => exact List.mem_cons_of_mem _ (ih p h c hc)
    · rw [if_neg ht] at hp
      cases hsp : sentPieces rest with
      | nil => exact absurd hsp (sentPieces_ne_nil rest)
      | cons q qs =>
        rw [hsp] at hp
        cases List.mem_cons.mp hp with
        | inl h =>
          subst h
          cases List.mem_cons.mp hc with
          | inl h2 =>
            subst h2
            exact List.mem_cons_self _ _
          | inr h2 =>
            exact List.mem_cons_of_mem _
              (ih q (by rw [hsp]; exact List.mem_cons_self _ _) c h2)
        | inr h =>
          exact List.mem_cons_of_mem _
            (ih p (by rw [hsp]; exact List.mem_cons_of_mem _ h) c hc)

theorem paraPiecesF_cons_sep {c : Char} {rest : List Char} {fuel : Nat}
    (h : c = '\n' ∧ '\n' ∈ rest.takeWhile isPySpace) :
    paraPiecesF (fuel + 1) (c :: rest) =
      [] :: paraPiecesF fuel
        (afterLastNl (rest.takeWhile isPySpace) ++ rest.dropWhile isPySpace) := by
  show (if c = '\n' ∧ '\n' ∈ rest.takeWhile isPySpace then
      [] :: paraPiecesF fuel
        (afterLastNl (rest.takeWhile isPySpace) ++ rest.dropWhile isPySpace)
    else
      match paraPiecesF fuel rest with
      | p :: ps => (c :: p) :: ps
      | [] => [[c]]) = _
  rw [if_pos h]

theorem paraPiecesF_cons_nosep {c : Char} {rest : List Char} {fuel : Nat}
    (h : ¬(c = '\n' ∧ '\n' ∈ rest.takeWhile isPySpace)) :
    paraPiecesF (fuel + 1) (c :: rest) =
      match paraPiecesF fuel rest with
      | p :: ps => (c :: p) :: ps
      | [] => [[c]] := by
  show (if c = '\n' ∧ '\n' ∈ rest.takeWhile isPySpace then
      [] :: paraPiecesF fuel
        (afterLastNl (rest.takeWhile isPySpace) ++ rest.dropWhile isPySpace)
    else
      match paraPiecesF fuel rest with
      | p :: ps => (c :: p) :: ps
      | [] => [[c]]) = _
  rw [if_neg h]

theorem paraPiecesF_ne_nil : ∀ (fuel : Nat) (s : List Char), paraPiecesF fuel s ≠ [] := by
  intro fuel
  induction fuel with
  | zero =>
    intro s
    simp [paraPiecesF]
  | succ fuel ih =>
    intro s
    cases s with
    | nil => simp [paraPiecesF]
    | cons c rest =>
      by_cases hsep : c = '\n' ∧ '\n' ∈ rest.takeWhile isPySpace
      · rw [paraPiecesF_cons_sep hsep]
        exact List.cons_ne_nil _ _
      · rw [paraPiecesF_cons_nosep hsep]
        cases hp : paraPiecesF fuel rest with
        | nil => exact absurd hp (ih rest)
        | cons p ps => exact List.cons_ne_nil _ _

theorem isPySpace_nl : isPySpace '\n' = true := by decide

theorem paraPiecesF_all_space :
    ∀ (fuel : Nat) (s : List Char),
      (∀ p ∈ paraPiecesF fuel s, ∀ c ∈ p, isPySpace c = true) →
      ∀ c ∈ s, isPySpace c = true := by
  intro fuel
  induction fuel with
  | zero =>
    intro s hp c hc
    exact hp s (by simp [paraPiecesF]) c hc
  | succ fuel ih =>
    intro s hp c hc
    cases s with
    | nil => exact absurd hc (List.not_mem_nil c)
    | cons a rest =>
      by_cases hsep : a = '\n' ∧ '\n' ∈ rest.takeWhile isPySpace
      · rw [paraPiecesF_cons_sep hsep] at hp
        have hres : ∀ c ∈ afterLastNl (rest.takeWhile isPySpace) ++
            rest.dropWhile isPySpace, isPySpace c = true :=
          ih _ (fun p hmem => hp p (List.mem_cons_of_mem _ hmem))
        cases List.mem_cons.mp hc with
        | inl h =>
          subst h
          rw [hsep.1]
          exact isPySpace_nl
        | inr h =>
          rw [← List.takeWhile_append_dropWhile (p := isPySpace) (l := rest)] at h
          cases List.mem_append.mp h with
          | inl htw => exact List.mem_takeWhile_imp htw
          | inr hdw => exact hres c (List.mem_append_right _ hdw)
      · cases hpr : paraPiecesF fuel rest with
        | nil => exact absurd hpr (paraPiecesF_ne_nil fuel rest)
        | cons q qs =>
          rw [paraPiecesF_cons_nosep hsep, hpr] at hp
          have hrest : ∀ c ∈ rest, isPySpace c = true := by
            apply ih rest
            intro p hmem c' hc'
            rw [hpr] at hmem
            cases List.mem_cons.mp hmem with
            | inl h =>
              subst h
              exact hp (a :: p) (List.mem_cons_self _ _) c' (List.mem_cons_of_mem _ hc')
            | inr h => exact hp p (List.mem_cons_of_mem _ h) c' hc'
          cases List.mem_cons.mp hc with
          | inl h =>
            rw [h]
            exact hp (a :: q) (List.mem_cons_self _ _) a (List.mem_cons_self _ _)
          | inr h => exact hrest c h

theorem paragraphsOf_nil_all_space {clean : List Char}
    (h : (SEOAnalyzer.paragraphsOf clean).length = 0) :
    ∀ c ∈ clean, isPySpace c = true := by
  apply paraPiecesF_all_space clean.length clean
  intro p hp c hc
  have hfil : ((paraPieces clean).map pyStrip).filter (fun p => !p.isEmpty) = [] :=
    List.length_eq_zero.mp h
  have hmem : pyStrip p ∈ (paraPieces clean).map pyStrip :=
    List.mem_map_of_mem _ hp
  have hpred := List.filter_eq_nil_iff.mp hfil _ hmem
  have hnil : pyStrip p = [] := by
    simpa [List.isEmpty_iff] using hpred
  exact (pyStrip_eq_nil_iff p).mp hnil c hc

theorem sentencesOf_nil_of_all_space {clean : List Char}
    (h : ∀ c ∈ clean, isPySpace c = true) :
    SEOAnalyzer.sentencesOf clean = [] := by
  unfold SEOAnalyzer.sentencesOf
  rw [List.filter_eq_nil_iff]
  intro a ha
  obtain ⟨p, hp, rfl⟩ := List.mem_map.mp ha
  have hnil : pyStrip p = [] :=
    (pyStrip_eq_nil_iff p).mpr (fun c hc => h c (sentPieces_mem_mem clean p hp c hc))
  simp [hnil]

theorem avgLen_of_len_zero {ps : List (List Char)} (h : ps.length = 0) :
    SEOAnalyzer.avgLen ps = 0 := by
  unfold SEOAnalyzer.avgLen
  rw [if_neg (by omega)]

/-- C2: `is_good_readability` equals the spec formula
`avg_paragraph_length < 120 AND avg_sentence_length < 50 AND
(paragraph_count == 0 OR long_paragraph_count/paragraph_count < 0.3)`:
when `paragraph_count = 0` the code short-circuits to `True`, but then
the cleaned text is all whitespace, so both averages are `0` and the
formula holds as well. -/
theorem analyze_readability_good_iff (t : String) :
    (SEOAnalyzer.analyze_readability t).is_good_readability = true ↔
      ((SEOAnalyzer.analyze_readability t).avg_paragraph_length < 120 ∧
       (SEOAnalyzer.analyze_readability t).avg_sentence_length < 50 ∧
       ((SEOAnalyzer.analyze_readability t).paragraph_count = 0 ∨
        ((SEOAnalyzer.analyze_readability t).long_paragraphs_count : ℚ) /
          ((SEOAnalyzer.analyze_readability t).paragraph_count : ℚ) < 0.3)) := by
  show (if (SEOAnalyzer.paragraphsOf (cleanChars t.toList)).length > 0 then
      decide (SEOAnalyzer.avgLen (SEOAnalyzer.paragraphsOf (cleanChars t.toList)) < 120) &&
      decide (SEOAnalyzer.avgLen (SEOAnalyzer.sentencesOf (cleanChars t.toList)) < 50) &&
      decide ((SEOAnalyzer.longParaCount (cleanChars t.toList) : ℚ) /
        ((SEOAnalyzer.paragraphsOf (cleanChars t.toList)).length : ℚ) < 0.3)
    else true) = true ↔
    (SEOAnalyzer.avgLen (SEOAnalyzer.paragraphsOf (cleanChars t.toList)) < 120 ∧
     SEOAnalyzer.avgLen (SEOAnalyzer.sentencesOf (cleanChars t.toList)) < 50 ∧
     ((SEOAnalyzer.paragraphsOf (cleanChars t.toList)).length = 0 ∨
      (SEOAnalyzer.longParaCount (cleanChars t.toList) : ℚ) /
        ((SEOAnalyzer.paragraphsOf (cleanChars t.toList)).length : ℚ) < 0.3))
  by_cases hpc : (SEOAnalyzer.paragraphsOf (cleanChars t.toList)).length = 0
  · rw [if_neg (by omega)]
    have hsent : SEOAnalyzer.sentencesOf (cleanChars t.toList) = [] :=
      sentencesOf_nil_of_all_space (paragraphsOf_nil_all_space hpc)
    have havgp : SEOAnalyzer.avgLen (SEOAnalyzer.paragraphsOf (cleanChars t.toList)) = 0 :=
      avgLen_of_len_zero hpc
    have havgs : SEOAnalyzer.avgLen (SEOAnalyzer.sentencesOf (cleanChars t.toList)) = 0 :=
      avgLen_of_len_zero (by rw [hsent]; rfl)
    constructor
    · intro _
      refine ⟨?_, ?_, Or.inl hpc⟩
      · rw [havgp]
        norm_num
      · rw [havgs]
        norm_num
    · intro _
      rfl
  · rw [if_pos (by omega)]
    simp only [Bool.and_eq_true, decide_eq_true_eq]
    constructor
    · rintro ⟨⟨hA, hB⟩, hC⟩
      exact ⟨hA, hB, Or.inr hC⟩
    · rintro ⟨hA, hB, hC⟩
      refine ⟨⟨hA, hB⟩, ?_⟩
      cases hC with
      | inl h => exact absurd h hpc
      | inr h => exact h

end SeoApp
